import Mathlib

/-!
# Verification of the VBZBreaker Morse drill engine

Shallow embedding of the core of the VBZBreaker repository
(`vbz_utils.py`, `vbz_synth.py`, `vbz_drill.py`, `vbz_session.py`), together
with theorems settling the specification claims about it.

Conventions:
* Python floats are modelled as exact rationals (`ℚ`); every arithmetic
  expression appearing in a theorem below is exactly representable, so the
  rational model agrees with the float computation at the inputs considered.
* Audio sample values (sine/cosine waveforms) are modelled as real numbers.
* Calls to `random.uniform` / `random.choice` are modelled by explicit
  oracle parameters, so theorems quantify over every outcome of the draws.
* Python `round` is round-half-to-even (`pyRound`); Python `int()` on a
  float truncates toward zero (`pyIntTrunc`); Python `max`/`min` are the
  if-based `pyMax`/`pyMaxQ`/`pyMinQ` (kept executable so that concrete
  instances evaluate by `decide`).
* Fallible Python operations (attribute lookup on a dataclass, NumPy
  broadcasting) return `Except String α`.
-/

/-- Python `max` on integers, written executably. -/
def pyMax (a b : ℤ) : ℤ := if a ≤ b then b else a

/-- Python `max` on rationals, written executably. -/
def pyMaxQ (a b : ℚ) : ℚ := if a ≤ b then b else a

/-- Python `min` on rationals, written executably. -/
def pyMinQ (a b : ℚ) : ℚ := if a ≤ b then a else b

theorem pyMax_eq_max (a b : ℤ) : pyMax a b = max a b := (max_def a b).symm

theorem pyMaxQ_eq_max (a b : ℚ) : pyMaxQ a b = max a b := (max_def a b).symm

theorem pyMinQ_eq_min (a b : ℚ) : pyMinQ a b = min a b := (min_def a b).symm

theorem ratFloor_eq_floor (q : ℚ) : q.floor = ⌊q⌋ := rfl

/-- Python `round`: round half to even (banker's rounding), as used by
`round(...)` in `SessionRunner._run_reanchor`. -/
def pyRound (q : ℚ) : ℤ :=
  if q - (q.floor : ℚ) < 1/2 then q.floor
  else if 1/2 < q - (q.floor : ℚ) then q.floor + 1
  else if q.floor % 2 = 0 then q.floor else q.floor + 1

/-- Python `int()` applied to a float: truncation toward zero. -/
def pyIntTrunc (q : ℚ) : ℤ :=
  if q < 0 then -((-q).floor) else q.floor

/-- Embedding of `vbz_utils.dit_seconds`: `1.2 / max(1, wpm)`. -/
def dit_seconds (wpm : ℚ) : ℚ :=
  (1.2 : ℚ) / pyMaxQ 1 wpm

/-- Embedding of the per-block repetition-count computation of
`SessionRunner._run_reanchor` (src/vbz_session.py lines 196-218), as a
function of the timing balance and the low/high WPM values.  Returns
`(low_reps, high_reps)`. -/
def reanchorReps (balance low_wpm high_wpm : ℚ) : ℤ × ℤ :=
  if balance = 0 then (8, 8)
  else
    let equal_time_ratio := low_wpm / high_wpm
    let char_ratio := 1 + balance * (equal_time_ratio - 1)
    let total_reps : ℚ := 16
    let low_reps := pyMax 1 (pyRound (total_reps * char_ratio / (1 + char_ratio)))
    let high_reps := pyMax 1 (16 - low_reps)
    (low_reps, high_reps)

theorem pyRound_le {q : ℚ} {n : ℤ} (h : q ≤ (n : ℚ)) : pyRound q ≤ n := by
  have hf : ⌊q⌋ ≤ n := by
    have h2 := Int.floor_mono h
    rwa [Int.floor_intCast] at h2
  unfold pyRound
  simp only [ratFloor_eq_floor]
  by_cases h1 : q - (⌊q⌋ : ℚ) < 1/2
  · rw [if_pos h1]; exact hf
  · rw [if_neg h1]
    have hlt : ⌊q⌋ < n := by
      rcases lt_or_eq_of_le hf with h' | h'
      · exact h'
      · exfalso
        apply h1
        have h2 : (⌊q⌋ : ℚ) ≤ q := Int.floor_le q
        rw [h'] at h2
        have hq : q = (n : ℚ) := le_antisymm h h2
        rw [hq, Int.floor_intCast]
        norm_num
    by_cases h2 : 1/2 < q - (⌊q⌋ : ℚ)
    · rw [if_pos h2]; omega
    · rw [if_neg h2]
      split <;> omega

theorem pyRound_nonneg {q : ℚ} (h : 0 ≤ q) : 0 ≤ pyRound q := by
  have hf : (0 : ℤ) ≤ ⌊q⌋ := Int.floor_nonneg.mpr h
  unfold pyRound
  simp only [ratFloor_eq_floor]
  split
  · omega
  · split
    · omega
    · split <;> omega

/-- Unfolding of `reanchorReps` on the branch where `balance ≠ 0`. -/
theorem reanchorReps_eq (balance low_wpm high_wpm : ℚ) (hb : ¬ balance = 0) :
    reanchorReps balance low_wpm high_wpm =
      (pyMax 1 (pyRound (16 * (1 + balance * (low_wpm / high_wpm - 1)) /
          (1 + (1 + balance * (low_wpm / high_wpm - 1))))),
       pyMax 1 (16 - pyMax 1 (pyRound (16 * (1 + balance * (low_wpm / high_wpm - 1)) /
          (1 + (1 + balance * (low_wpm / high_wpm - 1))))))) := by
  simp only [reanchorReps, if_neg hb]

/-- C2 counterexample evaluation: at `balance = 1, low_wpm = 14, high_wpm = 32`
the computed pair is not `(11, 5)`. -/
theorem reanchorReps_scenario2_not_11_5 : reanchorReps 1 14 32 ≠ (11, 5) := by
  have hfl : ((112 : ℚ)/23).floor = 4 := by
    rw [ratFloor_eq_floor, Int.floor_eq_iff]
    norm_num
  have hpr : pyRound (112/23) = 5 := by
    unfold pyRound
    rw [hfl]
    norm_num
  rw [reanchorReps_eq 1 14 32 (by norm_num)]
  have hx : (16 : ℚ) * (1 + 1 * (14 / 32 - 1)) / (1 + (1 + 1 * (14 / 32 - 1))) = 112/23 := by
    norm_num
  rw [hx, hpr]
  norm_num [pyMax, Prod.ext_iff]

/-- C2 (amended): at `balance = 1, low_wpm = 14, high_wpm = 32` the computed
repetition counts are `(low_reps, high_reps) = (5, 11)`, i.e. the ratio
`low_reps : high_reps ≈ 14 : 32` (the slow block gets fewer characters so the
two blocks take equal time). -/
theorem reanchorReps_scenario2 : reanchorReps 1 14 32 = (5, 11) := by
  have hfl : ((112 : ℚ)/23).floor = 4 := by
    rw [ratFloor_eq_floor, Int.floor_eq_iff]
    norm_num
  have hpr : pyRound (112/23) = 5 := by
    unfold pyRound
    rw [hfl]
    norm_num
  rw [reanchorReps_eq 1 14 32 (by norm_num)]
  have hx : (16 : ℚ) * (1 + 1 * (14 / 32 - 1)) / (1 + (1 + 1 * (14 / 32 - 1))) = 112/23 := by
    norm_num
  rw [hx, hpr]
  norm_num [pyMax, Prod.ext_iff]

/-- C4 counterexample evaluation: `wpm = 1/2` is positive, yet
`dit_seconds (1/2)` is `1.2` (because the source divides by `max(1, wpm)`),
not `1.2 / (1/2) = 2.4`. -/
theorem dit_seconds_half_counterexample :
    (0 : ℚ) < 1/2 ∧ dit_seconds (1/2) ≠ (1.2 : ℚ) / (1/2) := by
  constructor
  · norm_num
  · norm_num [dit_seconds, pyMaxQ]

/-- C4 (amended): for every `wpm ≥ 1`, `dit_seconds wpm = 1.2 / wpm`; for
every `wpm < 1` (in particular every `wpm ≤ 0`), `dit_seconds` behaves as if
`wpm = 1` and returns `1.2`. -/
theorem dit_seconds_piecewise (wpm : ℚ) :
    (1 ≤ wpm → dit_seconds wpm = (1.2 : ℚ) / wpm) ∧
    (wpm < 1 → dit_seconds wpm = (1.2 : ℚ)) := by
  constructor
  · intro h
    unfold dit_seconds
    rw [pyMaxQ_eq_max, max_eq_right h]
  · intro h
    unfold dit_seconds
    rw [pyMaxQ_eq_max, max_eq_left (le_of_lt h)]
    norm_num

/-- Witness for `dit_seconds_piecewise` at `wpm = 4` and `wpm = 1/2`. -/
theorem dit_seconds_piecewise_witness :
    dit_seconds 4 = (1.2 : ℚ) / 4 ∧ dit_seconds (1/2) = (1.2 : ℚ) :=
  ⟨(dit_seconds_piecewise 4).1 (by norm_num),
   (dit_seconds_piecewise (1/2)).2 (by norm_num)⟩

/-- C5 counterexample evaluation: at `balance = 1`, `low_wpm = 100`,
`high_wpm = 1` (a positive low/high pair) the computed counts are `(16, 1)`,
whose sum is `17`, not `16`. -/
theorem reanchorReps_sum_17_counterexample :
    reanchorReps 1 100 1 = (16, 1) ∧
    ¬ ((reanchorReps 1 100 1).1 + (reanchorReps 1 100 1).2 = 16) := by
  have hfl : ((1600 : ℚ)/101).floor = 15 := by
    rw [ratFloor_eq_floor, Int.floor_eq_iff]
    norm_num
  have hpr : pyRound (1600/101) = 16 := by
    unfold pyRound
    rw [hfl]
    norm_num
  have heval : reanchorReps 1 100 1 = (16, 1) := by
    rw [reanchorReps_eq 1 100 1 (by norm_num)]
    have hx : (16 : ℚ) * (1 + 1 * (100 / 1 - 1)) / (1 + (1 + 1 * (100 / 1 - 1))) = 1600/101 := by
      norm_num
    rw [hx, hpr]
    norm_num [pyMax, Prod.ext_iff]
  refine ⟨heval, ?_⟩
  rw [heval]
  norm_num

/-- C5 (amended): for every balance in `[0,1]` and every positive low/high
WPM pair with `low_wpm ≤ high_wpm`, the reanchor repetition counts satisfy
`low_reps + high_reps = 16`, `low_reps ≥ 1` and `high_reps ≥ 1`, and at
`balance = 0` they are `low_reps = high_reps = 8`.  (Without the
`low_wpm ≤ high_wpm` restriction the sum can exceed 16, see the
counterexample at `balance = 1`, `low_wpm = 100`, `high_wpm = 1`.) -/
theorem reanchorReps_bounds (balance low_wpm high_wpm : ℚ)
    (hb0 : 0 ≤ balance) (hb1 : balance ≤ 1)
    (hlow : 0 < low_wpm) (hhigh : 0 < high_wpm)
    (hle : low_wpm ≤ high_wpm) :
    (reanchorReps balance low_wpm high_wpm).1 +
      (reanchorReps balance low_wpm high_wpm).2 = 16 ∧
    1 ≤ (reanchorReps balance low_wpm high_wpm).1 ∧
    1 ≤ (reanchorReps balance low_wpm high_wpm).2 ∧
    (balance = 0 → reanchorReps balance low_wpm high_wpm = (8, 8)) := by
  by_cases hz : balance = 0
  · subst hz
    have h0 : reanchorReps 0 low_wpm high_wpm = (8, 8) := by
      simp [reanchorReps]
    rw [h0]
    exact ⟨by norm_num, by norm_num, by norm_num, fun _ => rfl⟩
  · have hratio_pos : 0 < low_wpm / high_wpm := div_pos hlow hhigh
    have hratio_le : low_wpm / high_wpm ≤ 1 := (div_le_one hhigh).mpr hle
    set r := low_wpm / high_wpm with hr
    set cr := 1 + balance * (r - 1) with hcr
    have hcr_pos : 0 < cr := by
      rcases lt_or_eq_of_le hb1 with h' | h'
      · nlinarith
      · rw [hcr, ← h']; nlinarith
    have hcr_le : cr ≤ 1 := by nlinarith
    have hx_le : 16 * cr / (1 + cr) ≤ 8 := by
      rw [div_le_iff₀ (by linarith)]
      nlinarith
    have hx_pos : 0 < 16 * cr / (1 + cr) := by positivity
    have hround_le : pyRound (16 * cr / (1 + cr)) ≤ 8 := by
      apply pyRound_le
      exact_mod_cast hx_le
    have hround_nonneg : 0 ≤ pyRound (16 * cr / (1 + cr)) :=
      pyRound_nonneg (le_of_lt hx_pos)
    have hexp : reanchorReps balance low_wpm high_wpm =
        (pyMax 1 (pyRound (16 * cr / (1 + cr))),
         pyMax 1 (16 - pyMax 1 (pyRound (16 * cr / (1 + cr))))) := by
      simp only [reanchorReps, if_neg hz]
    rw [hexp]
    dsimp only
    simp only [pyMax_eq_max]
    refine ⟨?_, ?_, ?_, fun h => absurd h hz⟩
    · omega
    · omega
    · omega

/-- Witness for `reanchorReps_bounds` at `balance = 1/2`, `low_wpm = 12`,
`high_wpm = 36`. -/
theorem reanchorReps_bounds_witness :
    (reanchorReps (1/2) 12 36).1 + (reanchorReps (1/2) 12 36).2 = 16 ∧
    1 ≤ (reanchorReps (1/2) 12 36).1 ∧
    1 ≤ (reanchorReps (1/2) 12 36).2 ∧
    ((1/2 : ℚ) = 0 → reanchorReps (1/2) 12 36 = (8, 8)) :=
  reanchorReps_bounds (1/2) 12 36 (by norm_num) (by norm_num) (by norm_num)
    (by norm_num) (by norm_num)

/-- Embedding of `vbz_utils.MORSE_MAP`: the supported alphabet and its codes. -/
def MORSE_MAP : List (Char × String) := [
  ('A', ".-"), ('B', "-..."), ('C', "-.-."), ('D', "-.."), ('E', "."),
  ('F', "..-."), ('G', "--."), ('H', "...."), ('I', ".."), ('J', ".---"),
  ('K', "-.-"), ('L', ".-.."), ('M', "--"), ('N', "-."), ('O', "---"),
  ('P', ".--."), ('Q', "--.-"), ('R', ".-."), ('S', "..."), ('T', "-"),
  ('U', "..-"), ('V', "...-"), ('W', ".--"), ('X', "-..-"), ('Y', "-.--"),
  ('Z', "--.."),
  ('0', "-----"), ('1', ".----"), ('2', "..---"), ('3', "...--"), ('4', "....-"),
  ('5', "....."), ('6', "-...."), ('7', "--..."), ('8', "---.."), ('9', "----.")]

/-- Embedding of the lookup `MORSE_MAP.get(symbol.upper(), '')` used by
`MorseSynth._symbol_to_units`. -/
def morseLookup (c : Char) : String := (MORSE_MAP.lookup c.toUpper).getD ("")

/-- Embedding of the `SynthConfig` dataclass of `vbz_synth.py`. -/
structure SynthConfig where
  sample_rate : ℕ := 48000
  tone_hz : ℚ := 650
  wpm : ℚ := 25
  jitter_pct : ℚ := 0
  stereo_pair : Option (Char × Char) := none
  pan_strength : ℚ := 1
  tone_jitter_hz : ℚ := 0
  wpm_jitter : ℚ := 0
  gain : ℚ := 1/4

/-- Embedding of `MorseSynth._jitter`: `u` stands for the value drawn by
`random.uniform(-delta, delta)`; it is only consulted when `jitter_pct > 0`. -/
def jitterDur (jitter_pct u base : ℚ) : ℚ :=
  if jitter_pct ≤ 0 then base else pyMaxQ 0 (base + u)

theorem jitterDur_of_nonpos {jitter_pct : ℚ} (u base : ℚ) (h : jitter_pct ≤ 0) :
    jitterDur jitter_pct u base = base := if_pos h

/-- The two kinds of units emitted by `MorseSynth._symbol_to_units`. -/
inductive UnitKind
  | tone
  | sil
deriving DecidableEq

/-- Recursive embedding of the `for i, ch in enumerate(code)` loop of
`MorseSynth._symbol_to_units`: a jittered tone for each code element, and a
jittered one-dit silence after every element except the last.  `rand n` is
the value produced by the n-th call to `random.uniform`. -/
def unitsAux (d dah intra jitter_pct : ℚ) (rand : ℕ → ℚ) :
    ℕ → List Char → List (UnitKind × ℚ)
  | _, [] => []
  | i, ch :: rest =>
    let dur := jitterDur jitter_pct (rand (2 * i)) (if ch = '.' then d else dah)
    if rest.isEmpty then [(UnitKind.tone, dur)]
    else (UnitKind.tone, dur) ::
      (UnitKind.sil, jitterDur jitter_pct (rand (2 * i + 1)) intra) ::
      unitsAux d dah intra jitter_pct rand (i + 1) rest

/-- Embedding of `MorseSynth._symbol_to_units`. -/
def symbolToUnits (cfg : SynthConfig) (rand : ℕ → ℚ) (symbol : Char) :
    List (UnitKind × ℚ) :=
  let d := dit_seconds cfg.wpm
  unitsAux d (3 * d) d cfg.jitter_pct rand 0 (morseLookup symbol).toList

/-- The expected tone/silence alternation for a code of `n` elements:
`n` tones with a silence between consecutive tones and no trailing silence. -/
def interleaved : ℕ → List UnitKind
  | 0 => []
  | 1 => [UnitKind.tone]
  | n + 2 => UnitKind.tone :: UnitKind.sil :: interleaved (n + 1)

theorem count_interleaved_tone : ∀ n, (interleaved n).count UnitKind.tone = n
  | 0 => by simp [interleaved]
  | 1 => by simp [interleaved]
  | n + 2 => by
    rw [interleaved]
    simp [List.count_cons, count_interleaved_tone (n + 1)]

theorem count_interleaved_sil : ∀ n, (interleaved n).count UnitKind.sil = n - 1
  | 0 => by simp [interleaved]
  | 1 => by simp [interleaved]
  | n + 2 => by
    rw [interleaved]
    simp [List.count_cons, count_interleaved_sil (n + 1)]

theorem unitsAux_spec (d dah intra j : ℚ) (rand : ℕ → ℚ) :
    ∀ (cs : List Char) (i : ℕ),
      ((unitsAux d dah intra j rand i cs).map Prod.fst = interleaved cs.length) ∧
      (j ≤ 0 →
        ((unitsAux d dah intra j rand i cs).filter
            (fun p => p.1 == UnitKind.tone)).map Prod.snd
          = cs.map (fun ch => if ch = '.' then d else dah) ∧
        ∀ p ∈ unitsAux d dah intra j rand i cs, p.1 = UnitKind.sil → p.2 = intra) := by
  intro cs
  induction cs with
  | nil =>
    intro i
    simp [unitsAux, interleaved]
  | cons ch rest ih =>
    intro i
    cases rest with
    | nil =>
      constructor
      · simp [unitsAux, interleaved]
      · intro hj
        constructor
        · simp [unitsAux, jitterDur_of_nonpos _ _ hj]
        · intro p hp hsil
          simp [unitsAux] at hp
          rw [hp] at hsil
          simp at hsil
    | cons ch2 rest2 =>
      obtain ⟨h1, h2⟩ := ih (i + 1)
      have hunf : unitsAux d dah intra j rand i (ch :: ch2 :: rest2) =
          (UnitKind.tone, jitterDur j (rand (2 * i)) (if ch = '.' then d else dah)) ::
          (UnitKind.sil, jitterDur j (rand (2 * i + 1)) intra) ::
          unitsAux d dah intra j rand (i + 1) (ch2 :: rest2) := by
        simp [unitsAux]
      constructor
      · rw [hunf]
        simp only [List.map_cons, h1]
        simp [interleaved]
      · intro hj
        obtain ⟨h2a, h2b⟩ := h2 hj
        constructor
        · rw [hunf]
          simp [List.filter_cons, jitterDur_of_nonpos _ _ hj, h2a]
        · intro p hp hsil
          rw [hunf] at hp
          simp only [List.mem_cons] at hp
          rcases hp with hp | hp | hp
          · rw [hp] at hsil; simp at hsil
          · rw [hp]
            exact jitterDur_of_nonpos _ _ hj
          · exact h2b p hp hsil

theorem morse_keys_upper : ∀ p ∈ MORSE_MAP, (Prod.fst p).toUpper = Prod.fst p := by
  decide

theorem morse_lookup_self : ∀ p ∈ MORSE_MAP, MORSE_MAP.lookup p.1 = some p.2 := by
  decide

theorem morseLookup_of_mem {c : Char} {code : String} (h : (c, code) ∈ MORSE_MAP) :
    morseLookup c = code := by
  have h1 := morse_keys_upper (c, code) h
  have h2 := morse_lookup_self (c, code) h
  simp only at h1 h2
  unfold morseLookup
  rw [h1, h2]
  rfl

theorem symbolToUnits_def (cfg : SynthConfig) (rand : ℕ → ℚ) (symbol : Char) :
    symbolToUnits cfg rand symbol =
      unitsAux (dit_seconds cfg.wpm) (3 * dit_seconds cfg.wpm) (dit_seconds cfg.wpm)
        cfg.jitter_pct rand 0 (morseLookup symbol).toList := rfl

/-- C6: for every character of the supported alphabet with code string `code`,
`_symbol_to_units` returns exactly `len(code)` tone segments interleaved with
exactly `len(code) - 1` silences, with no trailing silence, and — before
jitter (`jitter_pct ≤ 0`) — each tone lasts one dit for a dot and three dits
for a dash while every inter-element silence lasts exactly one dit.  This
holds for every synth configuration and every outcome of the random draws. -/
theorem symbolToUnits_structure (cfg : SynthConfig) (rand : ℕ → ℚ) (c : Char)
    (code : String) (hmem : (c, code) ∈ MORSE_MAP) :
    ((symbolToUnits cfg rand c).map Prod.fst = interleaved code.length) ∧
    (((symbolToUnits cfg rand c).map Prod.fst).count UnitKind.tone = code.length) ∧
    (((symbolToUnits cfg rand c).map Prod.fst).count UnitKind.sil = code.length - 1) ∧
    (cfg.jitter_pct ≤ 0 →
      ((symbolToUnits cfg rand c).filter (fun p => p.1 == UnitKind.tone)).map Prod.snd
        = code.toList.map (fun ch =>
            if ch = '.' then dit_seconds cfg.wpm else 3 * dit_seconds cfg.wpm) ∧
      ∀ p ∈ symbolToUnits cfg rand c, p.1 = UnitKind.sil → p.2 = dit_seconds cfg.wpm) := by
  have hcode : morseLookup c = code := morseLookup_of_mem hmem
  rw [symbolToUnits_def, hcode]
  obtain ⟨h1, h2⟩ := unitsAux_spec (dit_seconds cfg.wpm) (3 * dit_seconds cfg.wpm)
    (dit_seconds cfg.wpm) cfg.jitter_pct rand code.toList 0
  have hlen : code.toList.length = code.length := rfl
  refine ⟨?_, ?_, ?_, ?_⟩
  · rw [h1, hlen]
  · rw [h1, hlen, count_interleaved_tone]
  · rw [h1, hlen, count_interleaved_sil]
  · intro hj
    exact h2 hj

/-- A mono default configuration (the dataclass defaults of `SynthConfig`). -/
def cfgMono : SynthConfig := {}

/-- Witness for `symbolToUnits_structure` at the character `A` (code `.-`)
with the default configuration and the all-zero draw oracle. -/
theorem symbolToUnits_structure_witness :
    ((symbolToUnits cfgMono (fun _ => 0) 'A').map Prod.fst
        = interleaved (String.length ".-")) ∧
    (((symbolToUnits cfgMono (fun _ => 0) 'A').map Prod.fst).count UnitKind.tone
        = String.length ".-") ∧
    (((symbolToUnits cfgMono (fun _ => 0) 'A').map Prod.fst).count UnitKind.sil
        = String.length ".-" - 1) ∧
    (cfgMono.jitter_pct ≤ 0 →
      ((symbolToUnits cfgMono (fun _ => 0) 'A').filter
          (fun p => p.1 == UnitKind.tone)).map Prod.snd
        = (String.toList ".-").map (fun ch =>
            if ch = '.' then dit_seconds cfgMono.wpm else 3 * dit_seconds cfgMono.wpm) ∧
      ∀ p ∈ symbolToUnits cfgMono (fun _ => 0) 'A',
        p.1 = UnitKind.sil → p.2 = dit_seconds cfgMono.wpm) :=
  symbolToUnits_structure cfgMono (fun _ => 0) 'A' ".-" (by decide)

/-- Embedding of `MorseSynth._pan_for_symbol`. -/
def panForSymbol (cfg : SynthConfig) (symbol : Char) : ℚ × ℚ :=
  match cfg.stereo_pair with
  | none => (1, 1)
  | some (x, y) =>
    if symbol.toUpper = x ∨ symbol.toUpper = y then
      if symbol.toUpper = x.toUpper then
        (1, 1 - pyMinQ 1 (pyMaxQ 0 cfg.pan_strength))
      else
        (1 - pyMinQ 1 (pyMaxQ 0 cfg.pan_strength), 1)
    else (1, 1)

theorem panForSymbol_none (cfg : SynthConfig) (symbol : Char)
    (h : cfg.stereo_pair = none) : panForSymbol cfg symbol = (1, 1) := by
  unfold panForSymbol
  rw [h]

theorem panForSymbol_some (cfg : SynthConfig) (symbol x y : Char)
    (h : cfg.stereo_pair = some (x, y)) :
    panForSymbol cfg symbol =
      if symbol.toUpper = x ∨ symbol.toUpper = y then
        if symbol.toUpper = x.toUpper then
          (1, 1 - pyMinQ 1 (pyMaxQ 0 cfg.pan_strength))
        else
          (1 - pyMinQ 1 (pyMaxQ 0 cfg.pan_strength), 1)
      else (1, 1) := by
  unfold panForSymbol
  rw [h]

/-- C7: `_pan_for_symbol` returns unity gain `(1, 1)` whenever no stereo pair
is configured or the symbol is not a member of the pair; for the two
(uppercase, distinct) pair members at `pan_strength = 1` it returns the
complementary leaning pairs `(1, 0)` (first member) and `(0, 1)` (second
member), each with exactly one channel gain equal to `0`. -/
theorem panForSymbol_spec (cfg : SynthConfig) (symbol : Char) :
    (cfg.stereo_pair = none → panForSymbol cfg symbol = (1, 1)) ∧
    (∀ x y, cfg.stereo_pair = some (x, y) → symbol.toUpper ≠ x →
      symbol.toUpper ≠ y → panForSymbol cfg symbol = (1, 1)) ∧
    (∀ x y, cfg.stereo_pair = some (x, y) → x.toUpper = x → y.toUpper = y →
      x ≠ y → cfg.pan_strength = 1 →
      panForSymbol cfg x = (1, 0) ∧ panForSymbol cfg y = (0, 1)) := by
  refine ⟨?_, ?_, ?_⟩
  · intro h
    exact panForSymbol_none cfg symbol h
  · intro x y h hx hy
    rw [panForSymbol_some cfg symbol x y h]
    rw [if_neg (by tauto)]
  · intro x y h hx hy hxy hps
    have hclamp : pyMinQ 1 (pyMaxQ 0 cfg.pan_strength) = 1 := by
      rw [hps]
      norm_num [pyMinQ, pyMaxQ]
    constructor
    · rw [panForSymbol_some cfg x x y h]
      rw [if_pos (Or.inl hx), if_pos (by rw [hx]), hclamp]
      norm_num
    · rw [panForSymbol_some cfg y x y h]
      have hne : ¬ y.toUpper = x.toUpper := by
        rw [hy, hx]
        exact fun hc => hxy hc.symm
      rw [if_pos (Or.inr hy), if_neg hne, hclamp]
      norm_num

/-- A stereo configuration training the pair `(H, 5)` at full pan strength. -/
def cfgHS : SynthConfig := { stereo_pair := some ('H', '5'), pan_strength := 1 }

/-- Witness for `panForSymbol_spec`: mono config centers `A`; with pair
`(H, 5)` at strength 1 a non-member `Q` is centered, `H` leans `(1, 0)` and
`5` leans `(0, 1)`. -/
theorem panForSymbol_spec_witness :
    panForSymbol cfgMono 'A' = (1, 1) ∧
    panForSymbol cfgHS 'Q' = (1, 1) ∧
    (panForSymbol cfgHS 'H' = (1, 0) ∧ panForSymbol cfgHS '5' = (0, 1)) :=
  ⟨(panForSymbol_spec cfgMono 'A').1 rfl,
   (panForSymbol_spec cfgHS 'Q').2.1 'H' '5' rfl (by decide) (by decide),
   (panForSymbol_spec cfgHS 'Q').2.2 'H' '5' rfl (by decide) (by decide)
     (by decide) rfl⟩

/-- Embedding of the `DrillSpec` dataclass exactly as declared in
`vbz_drill.py` (lines 58-78): these thirteen fields are all of its fields.
In particular the dataclass declares neither `timing_balance` nor
`swap_channels`. -/
structure DrillSpec where
  mode : String
  pair : Char × Char
  wpm : ℚ
  tone_hz : ℚ
  jitter_pct : ℚ := 0
  wpm_jitter : ℚ := 0
  tone_jitter_hz : ℚ := 0
  stereo : Bool := false
  pan_strength : ℚ := 1
  low_wpm : ℚ := 12
  high_wpm : ℚ := 36
  block_seconds : ℚ := 12
  overspeed_wpm : ℚ := 30

/-- A value of one of the field types of `DrillSpec`. -/
inductive PyVal
  | str (s : String)
  | chars (p : Char × Char)
  | num (q : ℚ)
  | boolean (b : Bool)

/-- Python attribute access on a `DrillSpec` instance: returns the field
value for each of the thirteen declared dataclass fields and raises
`AttributeError` for every other name. -/
def DrillSpec.getattr (spec : DrillSpec) : String → Except String PyVal
  | "mode" => Except.ok (PyVal.str spec.mode)
  | "pair" => Except.ok (PyVal.chars spec.pair)
  | "wpm" => Except.ok (PyVal.num spec.wpm)
  | "tone_hz" => Except.ok (PyVal.num spec.tone_hz)
  | "jitter_pct" => Except.ok (PyVal.num spec.jitter_pct)
  | "wpm_jitter" => Except.ok (PyVal.num spec.wpm_jitter)
  | "tone_jitter_hz" => Except.ok (PyVal.num spec.tone_jitter_hz)
  | "stereo" => Except.ok (PyVal.boolean spec.stereo)
  | "pan_strength" => Except.ok (PyVal.num spec.pan_strength)
  | "low_wpm" => Except.ok (PyVal.num spec.low_wpm)
  | "high_wpm" => Except.ok (PyVal.num spec.high_wpm)
  | "block_seconds" => Except.ok (PyVal.num spec.block_seconds)
  | "overspeed_wpm" => Except.ok (PyVal.num spec.overspeed_wpm)
  | name => Except.error ("AttributeError: " ++ name)

/-- Embedding of `SessionRunner._make_synth` (src/vbz_session.py lines
88-112).  Reads of fields the dataclass declares are direct projections; the
read of `self.spec.swap_channels` on line 98 goes through Python attribute
lookup, which fails because `DrillSpec` declares no such field. -/
def makeSynth (spec : DrillSpec) (wpm : Option ℚ) (tone : Option ℚ)
    (stereo : Option Bool) : Except String SynthConfig := do
  let wpm_eff := wpm.getD spec.wpm
  let tone_eff := tone.getD spec.tone_hz
  let allow_stereo := spec.mode == "reanchor" || spec.mode == "contrast"
  let want_stereo := stereo.getD spec.stereo
  let swap ← spec.getattr ("swap_channels")
  let swapb ← match swap with
    | PyVal.boolean b => Except.ok b
    | _ => Except.error ("TypeError")
  let pair := if swapb then (spec.pair.2, spec.pair.1) else spec.pair
  let stereo_pair := if allow_stereo && want_stereo then some pair else none
  Except.ok ⟨48000, tone_eff, wpm_eff, spec.jitter_pct, stereo_pair,
    spec.pan_strength, spec.tone_jitter_hz, spec.wpm_jitter, 1/4⟩

/-- C1 fails on the code: `DrillSpec` does not carry a `swap_channels` or a
`timing_balance` attribute, so for every `DrillSpec` value and every choice
of overrides, the per-block configuration builder `_make_synth` raises
`AttributeError` at its `spec.swap_channels` read, and the `timing_balance`
read performed by `_run_reanchor` raises `AttributeError` as well. -/
theorem makeSynth_attribute_error :
    (∀ (spec : DrillSpec) (wpm tone : Option ℚ) (stereo : Option Bool),
      makeSynth spec wpm tone stereo =
        Except.error ("AttributeError: swap_channels")) ∧
    (∀ spec : DrillSpec,
      spec.getattr ("timing_balance") =
        Except.error ("AttributeError: timing_balance")) := by
  constructor
  · intro spec wpm tone stereo
    rfl
  · intro spec
    rfl

/-- Observable effects of `SessionRunner.run` (src/vbz_session.py lines
134-167), in program order. -/
inductive RunEvent
  | uiStatus (msg : String)
  | openLog (path : String)
  | writeHeader
  | startAudioThread
  | enqueueAudio
deriving DecidableEq

/-- Effect-trace embedding of `SessionRunner.run`: when the module-level
`np` name is `None` (the numpy/sounddevice import failed), the method calls
the UI callback once with the fatal message and returns; otherwise it opens
the log, writes the header, starts the audio thread and runs the dispatched
mode loop, whose effects are abstracted by the `modeLoop` parameter (the
guard under verification returns before reaching any of them). -/
def runEffects (np_available : Bool) (log_path : String)
    (modeLoop : List RunEvent) : List RunEvent :=
  if np_available = false then
    [RunEvent.uiStatus ("NumPy is not available. Install numpy to run audio.")]
  else
    RunEvent.openLog log_path :: RunEvent.writeHeader ::
      RunEvent.startAudioThread :: modeLoop

/-- C8: with the numeric runtime unavailable, `SessionRunner.run` reports
the fatal status exactly once via the UI callback and performs nothing else:
the event-log file is not opened, the audio thread is not started, and no
audio is enqueued — for every log path and every possible mode-loop body. -/
theorem runEffects_numpy_missing (log_path : String) (modeLoop : List RunEvent) :
    runEffects false log_path modeLoop =
      [RunEvent.uiStatus ("NumPy is not available. Install numpy to run audio.")] ∧
    (runEffects false log_path modeLoop).countP
        (fun e => match e with | RunEvent.uiStatus _ => true | _ => false) = 1 ∧
    (∀ p, RunEvent.openLog p ∉ runEffects false log_path modeLoop) ∧
    RunEvent.startAudioThread ∉ runEffects false log_path modeLoop ∧
    RunEvent.enqueueAudio ∉ runEffects false log_path modeLoop := by
  refine ⟨rfl, rfl, ?_, ?_, ?_⟩
  · intro p
    simp [runEffects]
  · simp [runEffects]
  · simp [runEffects]

/-- Embedding of `vbz_utils.env_ramp`: cosine-shaped ramp of given length,
with values `0.5 * (1 - cos(pi * (i + 1) / (samples + 1)))`.  Sample values
are real numbers, matching the float computation symbolically. -/
noncomputable def env_ramp (samples : ℕ) : List ℝ :=
  (List.range samples).map (fun (i : ℕ) =>
    (1/2 : ℝ) * (1 - Real.cos (Real.pi * ((i : ℝ) + 1) / ((samples : ℝ) + 1))))

/-- NumPy in-place slice multiplication `sig[:k] *= ramp`: the write succeeds
only when the ramp broadcasts onto the slice — its length equals the slice's
length, or is 1; otherwise NumPy raises a ValueError. -/
def mulSliceFront (sig : List ℝ) (k : ℕ) (ramp : List ℝ) :
    Except String (List ℝ) :=
  let m := min k sig.length
  if ramp.length = m then
    Except.ok (List.zipWith (fun s r => s * r) (sig.take m) ramp ++ sig.drop m)
  else if ramp.length = 1 then
    Except.ok ((sig.take m).map (fun s => s * ramp.headI) ++ sig.drop m)
  else Except.error ("ValueError: could not broadcast")

/-- NumPy in-place slice multiplication `sig[-k:] *= ramp`, with the same
broadcasting rule as `mulSliceFront`. -/
def mulSliceBack (sig : List ℝ) (k : ℕ) (ramp : List ℝ) :
    Except String (List ℝ) :=
  let m := min k sig.length
  if ramp.length = m then
    Except.ok (sig.take (sig.length - m) ++
      List.zipWith (fun s r => s * r) (sig.drop (sig.length - m)) ramp)
  else if ramp.length = 1 then
    Except.ok (sig.take (sig.length - m) ++
      (sig.drop (sig.length - m)).map (fun s => s * ramp.headI))
  else Except.error ("ValueError: could not broadcast")

/-- Embedding of `MorseSynth._tone` (src/vbz_synth.py lines 92-116): a sine
buffer of `max(1, int(seconds * sr))` frames; the 5 ms cosine ramp
(`max(1, int(0.005 * sr))` samples) is written in place onto the first and
the last samples of the buffer under NumPy broadcasting rules; pan gains and
the output gain are applied to both channels. -/
noncomputable def tone (cfg : SynthConfig) (seconds : ℚ) (freq : ℝ)
    (pan : ℚ × ℚ) : Except String (List (ℝ × ℝ)) := do
  let sr := cfg.sample_rate
  let n := (pyMax 1 (pyIntTrunc (seconds * sr))).toNat
  let sig := (List.range n).map (fun (i : ℕ) =>
    Real.sin (2 * Real.pi * freq * (i : ℝ) / (sr : ℝ)))
  let ramp_samps := (pyMax 1 (pyIntTrunc ((0.005 : ℚ) * sr))).toNat
  let ramp := env_ramp ramp_samps
  let sig1 ← mulSliceFront sig ramp_samps ramp
  let sig2 ← mulSliceBack sig1 ramp_samps ramp.reverse
  Except.ok (sig2.map (fun s =>
    (s * (pan.1 : ℝ) * (cfg.gain : ℝ), s * (pan.2 : ℝ) * (cfg.gain : ℝ))))

theorem toneFrames_zero : (pyMax 1 (pyIntTrunc (0 * ((48000 : ℕ) : ℚ)))).toNat = 1 := by
  have h0 : pyIntTrunc (0 * ((48000 : ℕ) : ℚ)) = 0 := by
    unfold pyIntTrunc
    rw [if_neg (by norm_num), ratFloor_eq_floor]
    norm_num
  rw [h0]
  decide

theorem rampSamples_48k :
    (pyMax 1 (pyIntTrunc ((0.005 : ℚ) * ((48000 : ℕ) : ℚ)))).toNat = 240 := by
  have h0 : pyIntTrunc ((0.005 : ℚ) * ((48000 : ℕ) : ℚ)) = 240 := by
    unfold pyIntTrunc
    rw [if_neg (by norm_num), ratFloor_eq_floor]
    rw [show ((0.005 : ℚ) * ((48000 : ℕ) : ℚ)) = 240 from by norm_num]
    norm_num
  rw [h0]
  decide

/-- C3 fails on the code: at `seconds = 0` (any frequency/pan) the guard
does compute the one-sample minimum buffer length, but the 5 ms fade —
240 ramp samples at 48 kHz — cannot broadcast onto the 1-frame buffer, so
`_tone` raises a NumPy ValueError instead of returning a faded buffer.  The
same happens for every requested duration below 5 ms. -/
theorem tone_zero_seconds_broadcast_error :
    (pyMax 1 (pyIntTrunc (0 * ((48000 : ℕ) : ℚ)))).toNat = 1 ∧
    tone cfgMono 0 650 (1, 1) = Except.error ("ValueError: could not broadcast") := by
  refine ⟨toneFrames_zero, ?_⟩
  simp only [tone, cfgMono]
  rw [toneFrames_zero, rampSamples_48k]
  have hfr : mulSliceFront
      ((List.range 1).map (fun (i : ℕ) =>
        Real.sin (2 * Real.pi * 650 * (i : ℝ) / ((48000 : ℕ) : ℝ))))
      240 (env_ramp 240) = Except.error ("ValueError: could not broadcast") := by
    simp only [mulSliceFront]
    have hrlen : (env_ramp 240).length = 240 := by
      simp [env_ramp]
    have hslen : ((List.range 1).map (fun (i : ℕ) =>
        Real.sin (2 * Real.pi * 650 * (i : ℝ) / ((48000 : ℕ) : ℝ)))).length = 1 := by
      simp
    rw [hrlen, hslen]
    rw [if_neg (by omega), if_neg (by omega)]
  rw [hfr]
  rfl

/-- Reference recursive Levenshtein distance on character lists, recursing on
the heads; the three minimum operands mirror the deletion / insertion /
substitution costs of the source's inner loop. -/
def levR : List Char → List Char → ℕ
  | [], ys => ys.length
  | xs, [] => xs.length
  | x :: xs, y :: ys =>
    min (levR xs (y :: ys) + 1)
      (min (levR (x :: xs) ys + 1) (levR xs ys + (if x = y then 0 else 1)))
termination_by xs ys => xs.length + ys.length
decreasing_by
  all_goals simp
  all_goals omega

theorem levR_nil_left (ys : List Char) : levR [] ys = ys.length := by
  simp [levR]

theorem levR_nil_right (xs : List Char) : levR xs [] = xs.length := by
  cases xs <;> simp [levR]

theorem levR_self (xs : List Char) : levR xs xs = 0 := by
  induction xs with
  | nil => simp [levR]
  | cons x xs ih =>
    simp only [levR]
    rw [ih]
    simp

theorem levR_symm : ∀ (xs ys : List Char), levR xs ys = levR ys xs
  | [], ys => by rw [levR_nil_left, levR_nil_right]
  | x :: xs, [] => by rw [levR_nil_left, levR_nil_right]
  | x :: xs, y :: ys => by
    have h1 := levR_symm xs (y :: ys)
    have h2 := levR_symm (x :: xs) ys
    have h3 := levR_symm xs ys
    simp only [levR]
    rw [h1, h2, h3]
    by_cases h : x = y
    · simp [h]
      omega
    · rw [if_neg h, if_neg (fun hc => h hc.symm)]
      omega
termination_by xs ys => xs.length + ys.length
decreasing_by
  all_goals simp
  all_goals omega

/-- The DP cell for prefixes `p` of the first and `t` of the second string:
their edit distance, expressed through `levR` on the reversed prefixes so
that the DP recurrence (which extends prefixes on the right) matches the
head recursion of `levR`. -/
def cell (p t : List Char) : ℕ := levR p.reverse t.reverse

/-- The tail of the DP row for first-string prefix `p`: cell values for the
second-string prefixes extending `t` by successive characters of `bs`. -/
def cells (p : List Char) : List Char → List Char → List ℕ
  | _, [] => []
  | t, cb :: bs => cell p (t ++ [cb]) :: cells p (t ++ [cb]) bs

/-- Embedding of the inner `for j, cb in enumerate(b, 1)` loop of
`vbz_utils.levenshtein`: walks the remaining characters of `b` together with
the consecutive entries `prev[j-1], prev[j]` of the previous row, carrying
the last appended value `cur[j-1]`.  The final clause covers a previous row
shorter than the remaining input; it never arises because the row built for
`b` always has `len(b) + 1` entries. -/
def levRowAux (ca : Char) : List Char → List ℕ → ℕ → List ℕ
  | [], _, _ => []
  | cb :: bs, pPrev :: pCur :: ps, last =>
    min (pCur + 1) (min (last + 1) (pPrev + (if ca = cb then 0 else 1))) ::
      levRowAux ca bs (pCur :: ps)
        (min (pCur + 1) (min (last + 1) (pPrev + (if ca = cb then 0 else 1))))
  | _ :: _, _, _ => []

/-- Embedding of the outer `for i, ca in enumerate(a, 1)` loop of
`vbz_utils.levenshtein`: each step replaces `prev` by `[i] + inner-loop
row`. -/
def levRows (b : List Char) : List Char → ℕ → List ℕ → List ℕ
  | [], _, prev => prev
  | ca :: rest, i, prev => levRows b rest (i + 1) (i :: levRowAux ca b prev i)

/-- The DP of `vbz_utils.levenshtein` after the argument swap: initial row
`list(range(len(b)+1))`, one row per character of `a`, result `prev[-1]`. -/
def levenshteinCore (a b : List Char) : ℕ :=
  (levRows b a 1 (List.range (b.length + 1))).getLastD 0

theorem cell_cons (p t : List Char) (ca cb : Char) :
    cell (p ++ [ca]) (t ++ [cb]) =
      min (cell p (t ++ [cb]) + 1)
        (min (cell (p ++ [ca]) t + 1) (cell p t + (if ca = cb then 0 else 1))) := by
  simp only [cell, List.reverse_append, List.reverse_cons, List.reverse_nil,
    List.nil_append, List.singleton_append]
  simp only [levR]

theorem cell_nil_right (p : List Char) : cell p [] = p.length := by
  simp [cell, levR_nil_right]

theorem cell_nil_left (t : List Char) : cell [] t = t.length := by
  simp [cell, levR_nil_left]

theorem levRowAux_spec (ca : Char) (p : List Char) :
    ∀ (bs t : List Char) (last : ℕ), last = cell (p ++ [ca]) t →
      levRowAux ca bs (cell p t :: cells p t bs) last = cells (p ++ [ca]) t bs := by
  intro bs
  induction bs with
  | nil =>
    intro t last h
    rfl
  | cons cb bs ih =>
    intro t last h
    simp only [cells, levRowAux]
    have hv : min (cell p (t ++ [cb]) + 1)
        (min (last + 1) (cell p t + (if ca = cb then 0 else 1)))
        = cell (p ++ [ca]) (t ++ [cb]) := by
      rw [h, cell_cons]
    rw [hv]
    rw [ih (t ++ [cb]) (cell (p ++ [ca]) (t ++ [cb])) rfl]

theorem levRows_spec (b : List Char) :
    ∀ (rest p : List Char),
      levRows b rest (p.length + 1) (cell p [] :: cells p [] b) =
        cell (p ++ rest) [] :: cells (p ++ rest) [] b := by
  intro rest
  induction rest with
  | nil =>
    intro p
    simp [levRows]
  | cons ca rest ih =>
    intro p
    simp only [levRows]
    have hlast : (p.length + 1 : ℕ) = cell (p ++ [ca]) [] := by
      rw [cell_nil_right]
      simp
    rw [show levRowAux ca b (cell p [] :: cells p [] b) (p.length + 1)
        = cells (p ++ [ca]) [] b from by
      rw [hlast]
      exact levRowAux_spec ca p b [] _ rfl]
    have hstep : (p.length + 1 : ℕ) :: cells (p ++ [ca]) [] b
        = cell (p ++ [ca]) [] :: cells (p ++ [ca]) [] b := by
      rw [hlast]
    rw [hstep]
    have hlen : p.length + 1 + 1 = (p ++ [ca]).length + 1 := by simp
    rw [hlen, ih (p ++ [ca])]
    simp

theorem getLastD_cells (p : List Char) :
    ∀ (bs t : List Char), (cells p t bs).getLastD (cell p t) = cell p (t ++ bs) := by
  intro bs
  induction bs with
  | nil =>
    intro t
    simp [cells]
  | cons cb bs ih =>
    intro t
    simp only [cells, List.getLastD_cons]
    rw [ih (t ++ [cb])]
    simp

theorem cells_nil_left :
    ∀ (bs t : List Char), cells [] t bs = List.range' (t.length + 1) bs.length := by
  intro bs
  induction bs with
  | nil =>
    intro t
    simp [cells]
  | cons cb bs ih =>
    intro t
    simp only [cells]
    rw [cell_nil_left, ih (t ++ [cb])]
    simp only [List.length_append, List.length_cons, List.length_nil]
    rw [List.range'_succ]

theorem init_row (b : List Char) :
    List.range (b.length + 1) = cell [] [] :: cells [] [] b := by
  rw [cells_nil_left b []]
  rw [cell_nil_left]
  rw [List.range_eq_range']
  simp [List.range'_succ]

theorem levenshteinCore_eq (a b : List Char) :
    levenshteinCore a b = levR a.reverse b.reverse := by
  unfold levenshteinCore
  rw [init_row b]
  have h := levRows_spec b a []
  simp only [List.nil_append, List.length_nil] at h
  rw [h]
  rw [List.getLastD_cons, getLastD_cells a b []]
  rfl

namespace VBZ

/-- Embedding of `vbz_utils.levenshtein` on strings: swap so that the first
argument is the longer one, then run the row DP.  (The name lives in the
`VBZ` namespace because Mathlib already has a root `levenshtein`.) -/
def levenshtein (a b : String) : ℕ :=
  if a.length < b.length then levenshteinCore b.toList a.toList
  else levenshteinCore a.toList b.toList

/-- C9: the source's Levenshtein distance satisfies `distance(x, x) = 0`,
`distance("", s) = len(s)`, and symmetry `distance(a, b) = distance(b, a)`. -/
theorem levenshtein_props :
    (∀ x : String, levenshtein x x = 0) ∧
    (∀ s : String, levenshtein ("") s = s.length) ∧
    (∀ a b : String, levenshtein a b = levenshtein b a) := by
  have hlen : ∀ s : String, s.toList.length = s.length := fun s => rfl
  refine ⟨?_, ?_, ?_⟩
  · intro x
    unfold levenshtein
    rw [if_neg (lt_irrefl _)]
    rw [levenshteinCore_eq, levR_self]
  · intro s
    unfold levenshtein
    by_cases h : String.length ("") < s.length
    · rw [if_pos h, levenshteinCore_eq]
      have he : (("" : String).toList.reverse) = [] := rfl
      rw [he, levR_nil_right]
      simp [hlen]
    · rw [if_neg h, levenshteinCore_eq]
      have he : (("" : String).toList.reverse) = [] := rfl
      rw [he, levR_nil_left]
      simp [hlen]
  · intro a b
    unfold levenshtein
    rcases lt_trichotomy a.length b.length with h | h | h
    · rw [if_pos h, if_neg (by omega)]
    · rw [if_neg (by omega), if_neg (by omega),
        levenshteinCore_eq, levenshteinCore_eq, levR_symm]
    · rw [if_neg (by omega), if_pos h]

end VBZ

/-- The prefix catalog `["W","K","N","AA","AB","NU","DL","F","I"]` that
`build_context_lines` draws its token prefixes from. -/
def ctxLeftChoices : List String :=
  ["W", "K", "N", "AA", "AB", "NU", "DL", "F", "I"]

/-- Python string insertion `s[:i] + c + s[i:]` for a single character
(total for every position, exactly like Python slicing). -/
def insertAt (s : String) (i : ℕ) (c : Char) : String :=
  ⟨s.toList.take i ++ c :: s.toList.drop i⟩

/-- Oracle for the random draws of `build_context_lines`: for the `k`-th
token, the prefix chosen by `random.choice`, the digit infix and letter
suffix built by `random.choices`, and the two `random.randint` insertion
positions. -/
structure CtxDraws where
  left : ℕ → String
  mid : ℕ → String
  right : ℕ → String
  insA : ℕ → ℕ
  insB : ℕ → ℕ

/-- The `k`-th token of `build_context_lines`: `left + mid + right` with the
uppercased pair members inserted one after the other at the drawn
positions. -/
def ctxToken (a b : Char) (dr : CtxDraws) (k : ℕ) : String :=
  insertAt (insertAt (dr.left k ++ dr.mid k ++ dr.right k) (dr.insA k) a)
    (dr.insB k) b

/-- The final loop of `build_context_lines`: join the token list three per
line with the two-space separator. -/
def joinChunks : List String → List String
  | [] => []
  | [t1] => [t1]
  | [t1, t2] => [t1 ++ "  " ++ t2]
  | t1 :: t2 :: t3 :: rest => (t1 ++ "  " ++ t2 ++ "  " ++ t3) :: joinChunks rest

/-- Embedding of `vbz_drill.build_context_lines` with the random draws made
explicit: `lines * 3` tokens, grouped three per line, truncated to `lines`
lines. -/
def build_context_lines (pair : Char × Char) (dr : CtxDraws) (lines : ℕ) :
    List String :=
  let a := pair.1.toUpper
  let b := pair.2.toUpper
  let tokens := (List.range (lines * 3)).map (ctxToken a b dr)
  (joinChunks tokens).take lines

/-- An uppercase letter or a digit — exactly the characters `string_audio`
can synthesize (the supported alphabet). -/
def validChar (c : Char) : Prop := ('A' ≤ c ∧ c ≤ 'Z') ∨ ('0' ≤ c ∧ c ≤ '9')

instance : DecidablePred validChar := fun c => by
  unfold validChar
  infer_instance

/-- The draw oracle stays inside the ranges `build_context_lines` draws
from: catalog prefixes, digit infixes, uppercase-letter suffixes.  (The
insertion positions need no constraint: the claim holds for all of them.) -/
def CtxDraws.Valid (dr : CtxDraws) : Prop :=
  (∀ k, dr.left k ∈ ctxLeftChoices) ∧
  (∀ k, ∀ c ∈ (dr.mid k).toList, c ∈ ("0123456789" : String).toList) ∧
  (∀ k, ∀ c ∈ (dr.right k).toList,
    c ∈ ("ABCDEFGHIJKLMNOPQRSTUVWXYZ" : String).toList)

theorem ctxLeft_valid : ∀ s ∈ ctxLeftChoices, ∀ c ∈ s.toList, validChar c := by
  decide

theorem digits_valid : ∀ c ∈ ("0123456789" : String).toList, validChar c := by
  decide

theorem letters_valid :
    ∀ c ∈ ("ABCDEFGHIJKLMNOPQRSTUVWXYZ" : String).toList, validChar c := by
  decide

theorem alphabet_valid :
    ∀ c ∈ MORSE_MAP.map Prod.fst, validChar c ∧ c.toUpper = c := by
  decide

theorem insertAt_toList (s : String) (i : ℕ) (c : Char) :
    (insertAt s i c).toList = s.toList.take i ++ c :: s.toList.drop i := rfl

theorem mem_insertAt_self (s : String) (i : ℕ) (c : Char) :
    c ∈ (insertAt s i c).toList := by
  rw [insertAt_toList]
  simp

theorem mem_insertAt_of_mem (s : String) (i : ℕ) (c d : Char)
    (h : d ∈ s.toList) : d ∈ (insertAt s i c).toList := by
  rw [insertAt_toList]
  rw [← List.take_append_drop i s.toList] at h
  rcases List.mem_append.mp h with h | h
  · exact List.mem_append.mpr (Or.inl h)
  · exact List.mem_append.mpr (Or.inr (List.mem_cons_of_mem _ h))

theorem insertAt_chars (s : String) (i : ℕ) (c d : Char)
    (h : d ∈ (insertAt s i c).toList) : d = c ∨ d ∈ s.toList := by
  rw [insertAt_toList] at h
  rcases List.mem_append.mp h with h | h
  · exact Or.inr (List.mem_of_mem_take h)
  · rcases List.mem_cons.mp h with h | h
    · exact Or.inl h
    · exact Or.inr (List.mem_of_mem_drop h)

theorem ctxToken_props (a b : Char) (dr : CtxDraws) (hv : CtxDraws.Valid dr)
    (ha : validChar a) (hb : validChar b) (k : ℕ) :
    a ∈ (ctxToken a b dr k).toList ∧ b ∈ (ctxToken a b dr k).toList ∧
    ∀ c ∈ (ctxToken a b dr k).toList, validChar c := by
  obtain ⟨hleft, hmid, hright⟩ := hv
  have hbase : ∀ c ∈ (dr.left k ++ dr.mid k ++ dr.right k).toList, validChar c := by
    intro c hc
    have hsplit : (dr.left k ++ dr.mid k ++ dr.right k).toList
        = (dr.left k).toList ++ (dr.mid k).toList ++ (dr.right k).toList := by
      simp [String.toList, String.data_append]
    rw [hsplit] at hc
    rcases List.mem_append.mp hc with hc | hc
    · rcases List.mem_append.mp hc with hc | hc
      · exact ctxLeft_valid _ (hleft k) c hc
      · exact digits_valid c (hmid k c hc)
    · exact letters_valid c (hright k c hc)
  unfold ctxToken
  refine ⟨?_, ?_, ?_⟩
  · exact mem_insertAt_of_mem _ _ _ _ (mem_insertAt_self _ _ _)
  · exact mem_insertAt_self _ _ _
  · intro c hc
    rcases insertAt_chars _ _ _ _ hc with rfl | hc1
    · exact hb
    · rcases insertAt_chars _ _ _ _ hc1 with rfl | hc2
      · exact ha
      · exact hbase c hc2

theorem joinChunks_mem : ∀ (ts : List String), ts.length % 3 = 0 →
    ∀ l ∈ joinChunks ts, ∃ t1 t2 t3, t1 ∈ ts ∧ t2 ∈ ts ∧ t3 ∈ ts ∧
      l = t1 ++ "  " ++ t2 ++ "  " ++ t3
  | [] => by
    intro h l hl
    simp [joinChunks] at hl
  | [t1] => by
    intro h
    simp at h
  | [t1, t2] => by
    intro h
    simp at h
  | t1 :: t2 :: t3 :: rest => by
    intro h l hl
    simp only [joinChunks, List.mem_cons] at hl
    rcases hl with hl | hl
    · exact ⟨t1, t2, t3, by simp, by simp, by simp, hl⟩
    · have h3 : rest.length % 3 = 0 := by
        simp only [List.length_cons] at h
        omega
      obtain ⟨u1, u2, u3, hu1, hu2, hu3, heq⟩ := joinChunks_mem rest h3 l hl
      exact ⟨u1, u2, u3, by simp [hu1], by simp [hu2], by simp [hu3], heq⟩

/-- C10: for every pair of supported-alphabet characters and every outcome
of the random draws, every line of `build_context_lines` splits into three
tokens joined by the two-space separator, each token consisting only of
uppercase letters and digits and containing at least one occurrence of each
uppercased pair member — so synthesizing a context line never silently
skips a pair character. -/
theorem build_context_lines_tokens (pair : Char × Char) (dr : CtxDraws)
    (lines : ℕ)
    (hpair1 : pair.1 ∈ MORSE_MAP.map Prod.fst)
    (hpair2 : pair.2 ∈ MORSE_MAP.map Prod.fst)
    (hdr : CtxDraws.Valid dr) :
    ∀ line ∈ build_context_lines pair dr lines,
      ∃ t1 t2 t3 : String,
        line = t1 ++ "  " ++ t2 ++ "  " ++ t3 ∧
        ∀ t ∈ [t1, t2, t3],
          pair.1.toUpper ∈ t.toList ∧ pair.2.toUpper ∈ t.toList ∧
          ∀ c ∈ t.toList, validChar c := by
  have ha := alphabet_valid pair.1 hpair1
  have hb := alphabet_valid pair.2 hpair2
  have haU : validChar pair.1.toUpper := by rw [ha.2]; exact ha.1
  have hbU : validChar pair.2.toUpper := by rw [hb.2]; exact hb.1
  intro line hline
  have hline2 : line ∈ joinChunks ((List.range (lines * 3)).map
      (ctxToken pair.1.toUpper pair.2.toUpper dr)) := by
    exact List.take_subset _ _ hline
  have hmod : ((List.range (lines * 3)).map
      (ctxToken pair.1.toUpper pair.2.toUpper dr)).length % 3 = 0 := by
    simp [Nat.mul_mod_left]
  obtain ⟨t1, t2, t3, h1, h2, h3, heq⟩ := joinChunks_mem _ hmod line hline2
  refine ⟨t1, t2, t3, heq, ?_⟩
  intro t ht
  have htok : ∃ k, ctxToken pair.1.toUpper pair.2.toUpper dr k = t := by
    have hmem : t ∈ (List.range (lines * 3)).map
        (ctxToken pair.1.toUpper pair.2.toUpper dr) := by
      simp only [List.mem_cons, List.not_mem_nil, or_false] at ht
      rcases ht with rfl | rfl | rfl
      · exact h1
      · exact h2
      · exact h3
    obtain ⟨k, _, hk⟩ := List.mem_map.mp hmem
    exact ⟨k, hk⟩
  obtain ⟨k, hk⟩ := htok
  rw [← hk]
  exact ctxToken_props _ _ dr hdr haU hbU k

/-- A concrete draw oracle: prefix `W`, infix `7`, suffix `AB`, both
insertions at position 0, for every token. -/
def ctxDrawsW : CtxDraws :=
  ⟨fun _ => "W", fun _ => "7", fun _ => "AB", fun _ => 0, fun _ => 0⟩

/-- Witness for `build_context_lines_tokens`: pair `(H, 5)` with the
constant draws produces the single line `5HW7AB  5HW7AB  5HW7AB`, and the
theorem instantiates on it. -/
theorem build_context_lines_tokens_witness :
    ∃ t1 t2 t3 : String,
      ("5HW7AB  5HW7AB  5HW7AB" : String) = t1 ++ "  " ++ t2 ++ "  " ++ t3 ∧
      ∀ t ∈ [t1, t2, t3],
        ('H', '5').1.toUpper ∈ t.toList ∧ ('H', '5').2.toUpper ∈ t.toList ∧
        ∀ c ∈ t.toList, validChar c :=
  build_context_lines_tokens ('H', '5') ctxDrawsW 1 (by decide) (by decide)
    ⟨fun _ => show ("W" : String) ∈ ctxLeftChoices from by decide,
     fun _ => show ∀ c ∈ ("7" : String).toList,
         c ∈ ("0123456789" : String).toList from by decide,
     fun _ => show ∀ c ∈ ("AB" : String).toList,
         c ∈ ("ABCDEFGHIJKLMNOPQRSTUVWXYZ" : String).toList from by decide⟩
    ("5HW7AB  5HW7AB  5HW7AB") (by decide)
